import Mathlib

/-!
Verification of the circular-statistics engine of the ski-bearing-stats
repository against its natural-language specification.

The histogram builder (src/ski_bearings/bearing.py, get_bearing_histogram and
friends) performs only field arithmetic and comparisons on its inputs, so it is
embedded over the rationals and stays fully executable.  The summary-statistics
computer (get_bearing_summary_stats) uses complex exponentials, atan2 and pi,
so it is embedded over the real and complex numbers; the decimal roundings of
the source (numpy round to 10 decimals, Python round to 7 decimals) are modelled
exactly as round-half-up on the scaled value (the source rounds half to even;
the two agree everywhere except exactly at half-grid ties, which none of the
statements below touch).  Python floating-point modulo is modelled exactly.
IEEE division 0/0 producing NaN is modelled by Option, with none standing for
the non-finite result.
-/

/-! ## Bearing histogram builder (bearing.py lines 118-186) -/

/-- Compass-rose labels for the 32-wind headings (bearing.py, bearing_labels). -/
def bearing_labels : List (ℚ × String) :=
  [(0, "N"), (11.25, "NbE"), (22.5, "NNE"), (33.75, "NEbN"),
   (45, "NE"), (56.25, "NEbE"), (67.5, "ENE"), (78.75, "EbN"),
   (90, "E"), (101.25, "EbS"), (112.5, "ESE"), (123.75, "SEbE"),
   (135, "SE"), (146.25, "SEbS"), (157.5, "SSE"), (168.75, "SbE"),
   (180, "S"), (191.25, "SbW"), (202.5, "SSW"), (213.75, "SWbS"),
   (225, "SW"), (236.25, "SWbW"), (247.5, "WSW"), (258.75, "WbS"),
   (270, "W"), (281.25, "WbN"), (292.5, "WNW"), (303.75, "NWbW"),
   (315, "NW"), (326.25, "NWbN"), (337.5, "NNW"), (348.75, "NbW")]

/-- One row of the histogram table produced by get_bearing_histogram.
bin_proportion is an Option: none models the IEEE non-finite value (NaN)
that polars produces when the column total used as the divisor is zero. -/
structure BearingBin where
  bin_index : ℕ
  bin_center : ℚ
  bin_count : ℚ
  bin_proportion : Option ℚ
  num_bins : ℕ
  bin_label : Option String
deriving DecidableEq, Repr

/-- Weighted count of one of the 2*num_bins split bins, as computed by
np.histogram with bin edges at multiples of 360/(2*num_bins) (bearing.py lines
153-160).  numpy half-open convention: bin j is [edge j, edge (j+1)), except
the last bin which also includes its right edge 360. -/
def splitInBin (num_bins j : ℕ) (b : ℚ) : Bool :=
  decide ((j : ℚ) * (360 / (2 * num_bins)) ≤ b ∧
    (b < ((j : ℚ) + 1) * (360 / (2 * num_bins)) ∨
      (j + 1 = 2 * num_bins ∧ b = 360)))

def splitBinCount (bearings weights : List ℚ) (num_bins j : ℕ) : ℚ :=
  (((bearings.zip weights).filter fun bw => splitInBin num_bins j bw.1).map
    Prod.snd).sum

/-- Split-bin counts after np.roll(split_bin_counts, 1) (bearing.py line 164):
entry 0 receives the last split bin, entry j receives split bin j-1. -/
def rolledBinCount (bearings weights : List ℚ) (num_bins j : ℕ) : ℚ :=
  if j = 0 then splitBinCount bearings weights num_bins (2 * num_bins - 1)
  else splitBinCount bearings weights num_bins (j - 1)

/-- Merged bin count: adjacent rolled split bins summed in pairs
(bearing.py line 165). -/
def mergedBinCount (bearings weights : List ℚ) (num_bins i : ℕ) : ℚ :=
  rolledBinCount bearings weights num_bins (2 * i) +
    rolledBinCount bearings weights num_bins (2 * i + 1)

/-- The whole-column total pl.sum("bin_count") used as the proportion divisor
(bearing.py line 177). -/
def histogramTotal (bearings weights : List ℚ) (num_bins : ℕ) : ℚ :=
  ((List.range num_bins).map (mergedBinCount bearings weights num_bins)).sum

/-- Embedding of get_bearing_histogram (bearing.py lines 135-186): merged bin
counts, centers at every other split edge, 1-based row index, proportion of
the whole-column total (none models the NaN produced by 0/0 when the total is
zero), and the 32-wind label lookup via replace_strict with default null. -/
def get_bearing_histogram (bearings weights : List ℚ) (num_bins : ℕ) :
    List BearingBin :=
  (List.range num_bins).map fun i =>
    { bin_index := i + 1
      bin_center := (2 * i : ℚ) * (360 / (2 * num_bins))
      bin_count := mergedBinCount bearings weights num_bins i
      bin_proportion :=
        if histogramTotal bearings weights num_bins = 0 then none
        else some (mergedBinCount bearings weights num_bins i /
          histogramTotal bearings weights num_bins)
      num_bins := num_bins
      bin_label :=
        (bearing_labels.find? fun kv =>
          kv.1 == (2 * i : ℚ) * (360 / (2 * num_bins))).map Prod.snd }

/-- Group-level summed bin count for one (num_bins, bin_index) cell across the
member entities' histogram rows (analyze.py lines 229-239, the group_by
aggregation with bin_count=pl.sum("bin_count")). -/
def agg_bin_count (entityBins : List (List BearingBin)) (n i : ℕ) : ℚ :=
  (entityBins.map fun bins =>
    ((bins.filter fun b => b.num_bins == n && b.bin_index == i).map
      BearingBin.bin_count).sum).sum

/-- Group-level per-resolution total pl.sum("bin_count").over(group, "num_bins")
(analyze.py line 241). -/
def agg_bin_count_total (entityBins : List (List BearingBin)) (n : ℕ) : ℚ :=
  (entityBins.map fun bins =>
    ((bins.filter fun b => b.num_bins == n).map BearingBin.bin_count).sum).sum

/-- Group-level bin proportion (analyze.py lines 245-249): bin_count divided by
the resolution total when that total is positive, otherwise 0 by the explicit
when/otherwise branch. -/
def agg_bin_proportion (entityBins : List (List BearingBin)) (n i : ℕ) : ℚ :=
  if agg_bin_count_total entityBins n > 0 then
    agg_bin_count entityBins n i / agg_bin_count_total entityBins n
  else 0

example :
    ((get_bearing_histogram [0, 90] [2, 3] 4).map BearingBin.bin_count)
      = [2, 3, 0, 0] := by with_unfolding_all decide

example :
    ((get_bearing_histogram [] [] 2).map BearingBin.bin_proportion)
      = [none, none] := by with_unfolding_all decide

example :
    ((get_bearing_histogram [0, 90] [2, 3] 4).map BearingBin.bin_label)
      = [some ("N"), some ("E"), some ("S"), some ("W")] := by
  with_unfolding_all decide

/-! ## Circular statistics computer (bearing.py lines 234-310) -/

/-- Hemisphere tag accepted by get_bearing_summary_stats. -/
inductive Hemisphere where
  | north
  | south
deriving DecidableEq, Repr

/-- Fields of the BearingStatsModel record returned by
get_bearing_summary_stats (models.py).  poleward_affinity is none when the
hemisphere is unknown. -/
structure BearingStatsModel where
  bearing_mean : ℝ
  bearing_alignment : ℝ
  poleward_affinity : Option ℝ
  eastward_affinity : ℝ
  bearing_magnitude_net : ℝ
  bearing_magnitude_cum : ℝ

/-- np.deg2rad. -/
noncomputable def deg2rad (x : ℝ) : ℝ := x * (Real.pi / 180)

/-- np.rad2deg. -/
noncomputable def rad2deg (x : ℝ) : ℝ := x * (180 / Real.pi)

/-- Decimal rounding to p places, as used by np.round(x, p) and round(x, p).
Modelled as round-half-up on the scaled value; the source rounds half to even,
and the two agree away from exact half-grid ties. -/
noncomputable def roundDec (p : ℕ) (x : ℝ) : ℝ := (round (x * 10 ^ p) : ℤ) / 10 ^ p

/-- Python float modulo x % m for m > 0: the representative of x in [0, m). -/
noncomputable def floatMod (x m : ℝ) : ℝ := x - m * ⌊x / m⌋

/-- The source's total_complex (bearing.py line 282): the weighted sum of the
unit vectors exp(i * deg2rad bearing) scaled by the net magnitudes. -/
noncomputable def totalComplexOf (bearings net_magnitudes : List ℝ) : ℂ :=
  ((bearings.zip net_magnitudes).map fun bw =>
    (bw.2 : ℂ) * Complex.exp ((deg2rad bw.1 : ℝ) * Complex.I)).sum

/-- Core computation of get_bearing_summary_stats (bearing.py lines 281-310)
once the three sequences have passed the shape assertion: polar decomposition
of total_complex with the 1e-10 epsilon guards, numpy round to 10 decimals of
the radian mean before degree conversion, Python modulo 360, hemisphere
dependent poleward affinity, and the 7-decimal rounding of every output. -/
noncomputable def bearingStatsOf (bearings net_magnitudes cum_magnitudes : List ℝ)
    (hemisphere : Option Hemisphere) : BearingStatsModel :=
  let total_complex := totalComplexOf bearings net_magnitudes
  let cum_magnitude := cum_magnitudes.sum
  let net_magnitude := Complex.abs total_complex
  let alignment := if cum_magnitude > 1e-10 then net_magnitude / cum_magnitude else 0
  let mean_bearing_rad := if net_magnitude > 1e-10 then Complex.arg total_complex else 0
  let mean_bearing_deg := floatMod (rad2deg (roundDec 10 mean_bearing_rad)) 360
  let poleward_affinity : Option ℝ :=
    match hemisphere with
    | some Hemisphere.north => some (alignment * Real.cos mean_bearing_rad)
    | some Hemisphere.south => some (-alignment * Real.cos mean_bearing_rad)
    | none => none
  let eastward_affinity := alignment * Real.sin mean_bearing_rad
  { bearing_mean := roundDec 7 mean_bearing_deg
    bearing_alignment := roundDec 7 alignment
    poleward_affinity := poleward_affinity.map (roundDec 7)
    eastward_affinity := roundDec 7 eastward_affinity
    bearing_magnitude_net := roundDec 7 net_magnitude
    bearing_magnitude_cum := roundDec 7 cum_magnitude }

/-- Embedding of get_bearing_summary_stats (bearing.py lines 234-310).  When
net or cum magnitudes are omitted they default to all ones (np.ones_like).
The only input validation in the source is the shape assertion on line 279;
none models the AssertionError raised when the shapes differ. -/
noncomputable def get_bearing_summary_stats (bearings : List ℝ)
    (net_magnitudes cum_magnitudes : Option (List ℝ))
    (hemisphere : Option Hemisphere) : Option BearingStatsModel :=
  let netms := net_magnitudes.getD (bearings.map fun _ => 1)
  let cumms := cum_magnitudes.getD (bearings.map fun _ => 1)
  if bearings.length = netms.length ∧ netms.length = cumms.length then
    some (bearingStatsOf bearings netms cumms hemisphere)
  else none

/-! ## Hierarchical aggregation (analyze.py lines 155-222) -/

/-- One row of the per-entity struct column fed to
_get_bearing_summary_stats_pl (analyze.py lines 155-171 and 212-217): the
entity's stored bearing_mean as the bearing, its net and cum magnitudes as the
weights, and its hemisphere tag.  Every field is nullable. -/
structure BearingStatsRow where
  bearing : Option ℝ
  bearing_magnitude_net : Option ℝ
  bearing_magnitude_cum : Option ℝ
  hemisphere : Option Hemisphere

/-- polars DataFrame.drop_nulls on the unnested struct column: a row survives
only when all four fields are non-null (analyze.py lines 156-161). -/
def dropNullRows (rows : List BearingStatsRow) : List (ℝ × ℝ × ℝ × Hemisphere) :=
  rows.filterMap fun r =>
    match r.bearing, r.bearing_magnitude_net, r.bearing_magnitude_cum, r.hemisphere with
    | some b, some n, some c, some h => some (b, n, c, h)
    | _, _, _, _ => none

/-- Embedding of _get_bearing_summary_stats_pl (analyze.py lines 155-171):
drop null rows, resolve the hemisphere by unpacking the unique values of the
hemisphere column (one unique value passes through; zero or several raise the
caught ValueError and leave the hemisphere as None), then call
get_bearing_summary_stats on the three columns. -/
noncomputable def get_bearing_summary_stats_pl (rows : List BearingStatsRow) :
    Option BearingStatsModel :=
  let clean := dropNullRows rows
  let hemisphere : Option Hemisphere :=
    match (clean.map fun r => r.2.2.2).dedup with
    | [h] => some h
    | _ => none
  get_bearing_summary_stats (clean.map fun r => r.1)
    (some (clean.map fun r => r.2.1)) (some (clean.map fun r => r.2.2.1)) hemisphere

/-! ## Exact-arithmetic variant for the re-aggregation equivalence

The re-aggregation claim compares two pipelines whose source forms round
intermediate results to 10 and 7 decimal places; the claim itself is stated
up to floating-point tolerance.  To state the equivalence at tolerance zero we
use the computation of bearingStatsOf with its two decimal roundings omitted
(every other expression is identical to the source); the decimal roundings,
like the binary floating-point error, only perturb each entity value on the
order of 1e-7 and are part of the tolerance the claim allows. -/

/-- bearingStatsOf with the decimal roundings omitted: the exact-arithmetic
reading of bearing.py lines 281-310 under which the tolerance in the
re-aggregation claim is zero. -/
noncomputable def bearingStatsExact (bearings net_magnitudes cum_magnitudes : List ℝ)
    (hemisphere : Option Hemisphere) : BearingStatsModel :=
  let total_complex := totalComplexOf bearings net_magnitudes
  let cum_magnitude := cum_magnitudes.sum
  let net_magnitude := Complex.abs total_complex
  let alignment := if cum_magnitude > 1e-10 then net_magnitude / cum_magnitude else 0
  let mean_bearing_rad := if net_magnitude > 1e-10 then Complex.arg total_complex else 0
  let mean_bearing_deg := floatMod (rad2deg mean_bearing_rad) 360
  let poleward_affinity : Option ℝ :=
    match hemisphere with
    | some Hemisphere.north => some (alignment * Real.cos mean_bearing_rad)
    | some Hemisphere.south => some (-alignment * Real.cos mean_bearing_rad)
    | none => none
  let eastward_affinity := alignment * Real.sin mean_bearing_rad
  { bearing_mean := mean_bearing_deg
    bearing_alignment := alignment
    poleward_affinity := poleward_affinity
    eastward_affinity := eastward_affinity
    bearing_magnitude_net := net_magnitude
    bearing_magnitude_cum := cum_magnitude }

/-- One raw segment: a bearing with its net and cumulative magnitudes. -/
structure Segment where
  bearing : ℝ
  net_magnitude : ℝ
  cum_magnitude : ℝ

/-- Entity-level summary statistics computed from raw segments. -/
noncomputable def segmentStats (segs : List Segment) (h : Option Hemisphere) :
    BearingStatsModel :=
  bearingStatsExact (segs.map Segment.bearing) (segs.map Segment.net_magnitude)
    (segs.map Segment.cum_magnitude) h

/-- The two-pass pipeline of aggregate_ski_areas_pl (analyze.py lines 184-222):
reduce each entity's raw segments to its summary, then feed the entity columns
bearing_mean (as bearing), bearing_magnitude_net and bearing_magnitude_cum back
through the statistics computer. -/
noncomputable def twoPassStats (entities : List (List Segment))
    (h : Option Hemisphere) : BearingStatsModel :=
  bearingStatsExact
    ((entities.map fun e => segmentStats e h).map BearingStatsModel.bearing_mean)
    ((entities.map fun e => segmentStats e h).map BearingStatsModel.bearing_magnitude_net)
    ((entities.map fun e => segmentStats e h).map BearingStatsModel.bearing_magnitude_cum)
    h

/-- The single-pass computation on the union of the group's raw segments. -/
noncomputable def onePassStats (entities : List (List Segment))
    (h : Option Hemisphere) : BearingStatsModel :=
  segmentStats entities.flatten h

/-! ## Helper lemmas -/

lemma roundDec_eq_of (p : ℕ) (x : ℝ) (n : ℤ) (h1 : (n : ℝ) ≤ x * 10 ^ p + 1 / 2)
    (h2 : x * 10 ^ p + 1 / 2 < (n : ℝ) + 1) : roundDec p x = (n : ℝ) / 10 ^ p := by
  unfold roundDec
  rw [round_eq, Int.floor_eq_iff.mpr ⟨h1, h2⟩]

lemma roundDec_intCast (p : ℕ) (n : ℤ) : roundDec p ((n : ℝ)) = (n : ℝ) := by
  unfold roundDec
  have : ((n : ℝ)) * 10 ^ p = ((n * 10 ^ p : ℤ) : ℝ) := by push_cast; ring
  rw [this, round_intCast]
  have hp : ((10 : ℝ) ^ p) ≠ 0 := by positivity
  push_cast
  field_simp

lemma roundDec_zero (p : ℕ) : roundDec p 0 = 0 := by
  simpa using roundDec_intCast p 0

lemma roundDec_one (p : ℕ) : roundDec p 1 = 1 := by
  simpa using roundDec_intCast p 1

lemma roundDec_le_intCast (p : ℕ) (x : ℝ) (n : ℤ) (h : x ≤ (n : ℝ)) :
    roundDec p x ≤ (n : ℝ) := by
  unfold roundDec
  have hp : (0 : ℝ) < 10 ^ p := by positivity
  rw [div_le_iff₀ hp, round_eq]
  have hfl : ⌊x * 10 ^ p + 1 / 2⌋ < n * 10 ^ p + 1 := by
    rw [Int.floor_lt]
    push_cast
    nlinarith
  have : ⌊x * 10 ^ p + 1 / 2⌋ ≤ n * 10 ^ p := Int.lt_add_one_iff.mp hfl
  calc ((⌊x * 10 ^ p + 1 / 2⌋ : ℤ) : ℝ) ≤ ((n * 10 ^ p : ℤ) : ℝ) := by exact_mod_cast this
    _ = (n : ℝ) * 10 ^ p := by push_cast; ring

lemma intCast_le_roundDec (p : ℕ) (x : ℝ) (n : ℤ) (h : (n : ℝ) ≤ x) :
    (n : ℝ) ≤ roundDec p x := by
  unfold roundDec
  have hp : (0 : ℝ) < 10 ^ p := by positivity
  rw [le_div_iff₀ hp, round_eq]
  have : (n * 10 ^ p : ℤ) ≤ ⌊x * 10 ^ p + 1 / 2⌋ := by
    rw [Int.le_floor]
    push_cast
    nlinarith
  calc (n : ℝ) * 10 ^ p = ((n * 10 ^ p : ℤ) : ℝ) := by push_cast; ring
    _ ≤ ((⌊x * 10 ^ p + 1 / 2⌋ : ℤ) : ℝ) := by exact_mod_cast this

lemma abs_list_sum_le (l : List ℂ) :
    Complex.abs l.sum ≤ (l.map Complex.abs).sum := by
  induction l with
  | nil => simp
  | cons a t ih =>
    simp only [List.sum_cons, List.map_cons]
    calc Complex.abs (a + t.sum) ≤ Complex.abs a + Complex.abs t.sum :=
          Complex.abs.add_le a t.sum
      _ ≤ Complex.abs a + (t.map Complex.abs).sum := by linarith

/-- Projection lemmas for bearingStatsOf, unfolding the let bindings of the
source computation. -/
lemma bearingStatsOf_alignment (bs ns cs : List ℝ) (h : Option Hemisphere) :
    (bearingStatsOf bs ns cs h).bearing_alignment =
      roundDec 7 (if cs.sum > 1e-10 then
        Complex.abs (totalComplexOf bs ns) / cs.sum else 0) := rfl

lemma bearingStatsOf_mean (bs ns cs : List ℝ) (h : Option Hemisphere) :
    (bearingStatsOf bs ns cs h).bearing_mean =
      roundDec 7 (floatMod (rad2deg (roundDec 10
        (if Complex.abs (totalComplexOf bs ns) > 1e-10 then
          Complex.arg (totalComplexOf bs ns) else 0))) 360) := rfl

lemma bearingStatsOf_net (bs ns cs : List ℝ) (h : Option Hemisphere) :
    (bearingStatsOf bs ns cs h).bearing_magnitude_net =
      roundDec 7 (Complex.abs (totalComplexOf bs ns)) := rfl

lemma bearingStatsOf_cum (bs ns cs : List ℝ) (h : Option Hemisphere) :
    (bearingStatsOf bs ns cs h).bearing_magnitude_cum = roundDec 7 cs.sum := rfl

lemma bearingStatsOf_eastward (bs ns cs : List ℝ) (h : Option Hemisphere) :
    (bearingStatsOf bs ns cs h).eastward_affinity =
      roundDec 7 ((if cs.sum > 1e-10 then
          Complex.abs (totalComplexOf bs ns) / cs.sum else 0) *
        Real.sin (if Complex.abs (totalComplexOf bs ns) > 1e-10 then
          Complex.arg (totalComplexOf bs ns) else 0)) := rfl

lemma bearingStatsOf_poleward_none (bs ns cs : List ℝ) :
    (bearingStatsOf bs ns cs none).poleward_affinity = none := rfl

lemma bearingStatsOf_poleward_north (bs ns cs : List ℝ) :
    (bearingStatsOf bs ns cs (some Hemisphere.north)).poleward_affinity =
      some (roundDec 7 ((if cs.sum > 1e-10 then
          Complex.abs (totalComplexOf bs ns) / cs.sum else 0) *
        Real.cos (if Complex.abs (totalComplexOf bs ns) > 1e-10 then
          Complex.arg (totalComplexOf bs ns) else 0))) := rfl

lemma bearingStatsOf_poleward_south (bs ns cs : List ℝ) :
    (bearingStatsOf bs ns cs (some Hemisphere.south)).poleward_affinity =
      some (roundDec 7 (-(if cs.sum > 1e-10 then
          Complex.abs (totalComplexOf bs ns) / cs.sum else 0) *
        Real.cos (if Complex.abs (totalComplexOf bs ns) > 1e-10 then
          Complex.arg (totalComplexOf bs ns) else 0))) := rfl

lemma get_bearing_summary_stats_eq_some (bs ns cs : List ℝ) (h : Option Hemisphere)
    (h1 : bs.length = ns.length) (h2 : ns.length = cs.length) :
    get_bearing_summary_stats bs (some ns) (some cs) h =
      some (bearingStatsOf bs ns cs h) := by
  simp [get_bearing_summary_stats, h1, h2]

lemma get_bearing_summary_stats_some_inv (bs ns cs : List ℝ) (h : Option Hemisphere)
    (s : BearingStatsModel)
    (hs : get_bearing_summary_stats bs (some ns) (some cs) h = some s) :
    s = bearingStatsOf bs ns cs h ∧ bs.length = ns.length ∧ ns.length = cs.length := by
  unfold get_bearing_summary_stats at hs
  simp only [Option.getD_some] at hs
  split at hs
  · rename_i hcond
    exact ⟨(Option.some_injective _ hs).symm, hcond⟩
  · exact absurd hs (by simp)

/-! ## Claim C5 -/

/-- C5 counterexample: get_bearing_summary_stats accepts a bearing outside
[0, 360) (the value 360 itself, which the repository's own test suite feeds it)
and accepts a negative magnitude, returning a value instead of failing with a
validation error.  This refutes the claim that every input-contract violation
is rejected eagerly. -/
theorem C5_counterexample :
    (get_bearing_summary_stats [360] (some [1]) (some [1]) none).isSome = true ∧
    (get_bearing_summary_stats [0] (some [-1]) (some [1]) none).isSome = true := by
  constructor <;> simp [get_bearing_summary_stats]

/-- C5 amended: the only input validation in get_bearing_summary_stats is the
shape assertion; the call fails (AssertionError, modelled by none) exactly when
the three sequences have different lengths, while negative magnitudes and
bearings outside [0, 360) are accepted silently. -/
theorem C5_shape_assertion_only (bs ns cs : List ℝ) (h : Option Hemisphere) :
    (get_bearing_summary_stats bs (some ns) (some cs) h).isSome = true ↔
      (bs.length = ns.length ∧ ns.length = cs.length) := by
  unfold get_bearing_summary_stats
  simp only [Option.getD_some]
  split
  · rename_i hc
    simpa using hc
  · rename_i hc
    simpa using hc

/-! ## Claim C8 -/

/-- C8: get_bearing_summary_stats never fails on degenerate input; whenever the
net magnitudes are all zero (in particular for empty inputs) it returns the
defined summary with bearing_mean 0, bearing_alignment 0, eastward_affinity 0,
poleward_affinity 0 when a hemisphere is given and null otherwise, and net
magnitude 0. -/
theorem C8_degenerate_input (bs ns : List ℝ) (cums : Option (List ℝ))
    (h : Option Hemisphere) (hlen1 : bs.length = ns.length)
    (hlen2 : ns.length = (cums.getD (bs.map fun _ => (1 : ℝ))).length)
    (hzero : ∀ x ∈ ns, x = 0) :
    get_bearing_summary_stats bs (some ns) cums h =
      some { bearing_mean := 0, bearing_alignment := 0,
             poleward_affinity := h.map fun _ => 0, eastward_affinity := 0,
             bearing_magnitude_net := 0,
             bearing_magnitude_cum :=
               roundDec 7 (cums.getD (bs.map fun _ => (1 : ℝ))).sum } := by
  have htot : totalComplexOf bs ns = 0 := by
    unfold totalComplexOf
    apply List.sum_eq_zero
    intro x hx
    simp only [List.mem_map] at hx
    obtain ⟨⟨b, w⟩, hbw, rfl⟩ := hx
    have hw : w ∈ ns := (List.of_mem_zip hbw).2
    simp [hzero w hw]
  unfold get_bearing_summary_stats
  rw [if_pos ⟨by simpa using hlen1, by simpa using hlen2⟩]
  congr 1
  unfold bearingStatsOf
  simp only [Option.getD_some]
  rw [htot]
  simp only [map_zero]
  have hng : ¬ ((0 : ℝ) > 1e-10) := by norm_num
  rw [if_neg hng]
  have halig : (if (cums.getD (bs.map fun _ => (1:ℝ))).sum > 1e-10 then
      (0 : ℝ) / (cums.getD (bs.map fun _ => (1:ℝ))).sum else 0) = 0 := by
    split <;> simp
  have hmean : floatMod (rad2deg (roundDec 10 0)) 360 = 0 := by
    rw [roundDec_zero]
    unfold rad2deg floatMod
    norm_num
  rw [halig, hmean]
  have hr0 : roundDec 7 0 = 0 := roundDec_zero 7
  cases h with
  | none =>
    simp [hr0]
  | some hemi =>
    cases hemi <;> simp [hr0]

/-- C8 witness: the concrete degenerate case of the claim, a single weight-zero
bearing of 90 degrees with defaulted cumulative magnitudes in the northern
hemisphere, evaluates to the degenerate summary. -/
theorem C8_degenerate_input_witness :
    get_bearing_summary_stats [90] (some [0]) none (some Hemisphere.north) =
      some { bearing_mean := 0, bearing_alignment := 0,
             poleward_affinity := some 0, eastward_affinity := 0,
             bearing_magnitude_net := 0, bearing_magnitude_cum := 1 } := by
  have h := C8_degenerate_input [90] [0] none (some Hemisphere.north)
    (by simp) (by simp) (by simp)
  rw [h]
  norm_num [roundDec_one]

/-! ## Claim C3 -/

lemma abs_totalComplexOf_le (bs ns : List ℝ) (hlen : bs.length = ns.length)
    (hnn : ∀ x ∈ ns, 0 ≤ x) :
    Complex.abs (totalComplexOf bs ns) ≤ ns.sum := by
  unfold totalComplexOf
  refine le_trans (abs_list_sum_le _) ?_
  rw [List.map_map]
  have hmap : ((bs.zip ns).map
      (Complex.abs ∘ fun bw => ((bw.2 : ℝ) : ℂ) *
        Complex.exp ((deg2rad bw.1 : ℝ) * Complex.I))) =
      (bs.zip ns).map Prod.snd := by
    apply List.map_congr_left
    intro bw hbw
    obtain ⟨b, w⟩ := bw
    have hw : w ∈ ns := (List.of_mem_zip hbw).2
    simp [Function.comp, map_mul, Complex.abs_ofReal,
      Complex.abs_exp_ofReal_mul_I, abs_of_nonneg (hnn w hw)]
  rw [hmap, List.map_snd_zip bs ns (le_of_eq hlen.symm)]

/-- C3 counterexample: with net and cum magnitudes unrelated beyond
non-negativity, bearing_alignment escapes [0, 1]: a single bearing with net
magnitude 1 and cumulative magnitude 1/2 yields alignment 2 (on which the
model's own le=1 constraint would fail). -/
theorem C3_counterexample :
    ∃ s, get_bearing_summary_stats [0] (some [1]) (some [1 / 2]) none = some s ∧
      ¬ s.bearing_alignment ≤ 1 := by
  refine ⟨bearingStatsOf [0] [1] [1 / 2] none,
    get_bearing_summary_stats_eq_some _ _ _ _ (by simp) (by simp), ?_⟩
  have htot : totalComplexOf [0] [1] = 1 := by
    simp [totalComplexOf, deg2rad]
  rw [bearingStatsOf_alignment, htot]
  have hsum : ([1 / 2] : List ℝ).sum = 1 / 2 := by simp
  rw [hsum, if_pos (by norm_num), map_one]
  have : (1 : ℝ) / (1 / 2) = ((2 : ℤ) : ℝ) := by norm_num
  rw [this, roundDec_intCast]
  norm_num

/-- C3 amended: the range invariants bearing_alignment in [0,1] and affinities
in [-1,1] hold under the additional hypothesis that the total net magnitude is
at most the total cumulative magnitude (satisfied on both real code paths,
where cum equals net per raw segment and group cum sums dominate group
resultants); without that hypothesis the invariants fail, as the
counterexample shows. -/
theorem C3_range_invariants (bs ns cs : List ℝ) (h : Option Hemisphere)
    (s : BearingStatsModel)
    (hs : get_bearing_summary_stats bs (some ns) (some cs) h = some s)
    (hnn : ∀ x ∈ ns, 0 ≤ x) (hle : ns.sum ≤ cs.sum) :
    (0 ≤ s.bearing_alignment ∧ s.bearing_alignment ≤ 1) ∧
    (∀ p, s.poleward_affinity = some p → -1 ≤ p ∧ p ≤ 1) ∧
    (-1 ≤ s.eastward_affinity ∧ s.eastward_affinity ≤ 1) := by
  obtain ⟨rfl, hlen1, _hlen2⟩ := get_bearing_summary_stats_some_inv bs ns cs h s hs
  set a : ℝ := if cs.sum > 1e-10 then Complex.abs (totalComplexOf bs ns) / cs.sum else 0
    with ha
  set r : ℝ := if Complex.abs (totalComplexOf bs ns) > 1e-10 then
      Complex.arg (totalComplexOf bs ns) else 0 with hr
  have ha0 : 0 ≤ a := by
    rw [ha]
    split
    · positivity
    · exact le_refl 0
  have ha1 : a ≤ 1 := by
    rw [ha]
    split
    · rename_i hcs
      have hcs0 : (0 : ℝ) < cs.sum := lt_trans (by norm_num) hcs
      rw [div_le_one hcs0]
      exact le_trans (abs_totalComplexOf_le bs ns hlen1 hnn) hle
    · norm_num
  have hcos1 := Real.cos_le_one r
  have hcosm1 := Real.neg_one_le_cos r
  have hsin1 := Real.sin_le_one r
  have hsinm1 := Real.neg_one_le_sin r
  have hbound : ∀ y : ℝ, -1 ≤ y → y ≤ 1 → -1 ≤ a * y ∧ a * y ≤ 1 := by
    intro y hy1 hy2
    constructor <;> nlinarith
  refine ⟨⟨?_, ?_⟩, ?_, ?_, ?_⟩
  · rw [bearingStatsOf_alignment, ← ha]
    exact_mod_cast intCast_le_roundDec 7 a 0 (by exact_mod_cast ha0)
  · rw [bearingStatsOf_alignment, ← ha]
    exact_mod_cast roundDec_le_intCast 7 a 1 (by exact_mod_cast ha1)
  · intro p hp
    cases h with
    | none => simp [bearingStatsOf_poleward_none] at hp
    | some hemi =>
      cases hemi with
      | north =>
        rw [bearingStatsOf_poleward_north, ← ha, ← hr] at hp
        obtain ⟨h1, h2⟩ := hbound (Real.cos r) hcosm1 hcos1
        have hp' : p = roundDec 7 (a * Real.cos r) := by
          exact (Option.some_injective _ hp).symm
        subst hp'
        constructor
        · exact_mod_cast intCast_le_roundDec 7 _ (-1) (by exact_mod_cast h1)
        · exact_mod_cast roundDec_le_intCast 7 _ 1 (by exact_mod_cast h2)
      | south =>
        rw [bearingStatsOf_poleward_south, ← ha, ← hr] at hp
        obtain ⟨h1, h2⟩ := hbound (-Real.cos r) (by linarith) (by linarith)
        have heq : -a * Real.cos r = a * -Real.cos r := by ring
        have hp' : p = roundDec 7 (-a * Real.cos r) := by
          exact (Option.some_injective _ hp).symm
        subst hp'
        rw [heq]
        constructor
        · exact_mod_cast intCast_le_roundDec 7 _ (-1) (by exact_mod_cast h1)
        · exact_mod_cast roundDec_le_intCast 7 _ 1 (by exact_mod_cast h2)
  · rw [bearingStatsOf_eastward, ← ha, ← hr]
    obtain ⟨h1, _⟩ := hbound (Real.sin r) hsinm1 hsin1
    exact_mod_cast intCast_le_roundDec 7 _ (-1) (by exact_mod_cast h1)
  · rw [bearingStatsOf_eastward, ← ha, ← hr]
    obtain ⟨_, h2⟩ := hbound (Real.sin r) hsinm1 hsin1
    exact_mod_cast roundDec_le_intCast 7 _ 1 (by exact_mod_cast h2)

/-- C3 witness: the amended range invariants instantiated at a concrete
northern-hemisphere input with net total below cum total. -/
theorem C3_range_invariants_witness :
    (0 ≤ (bearingStatsOf [0] [1] [2] (some Hemisphere.north)).bearing_alignment ∧
      (bearingStatsOf [0] [1] [2] (some Hemisphere.north)).bearing_alignment ≤ 1) ∧
    (∀ p, (bearingStatsOf [0] [1] [2] (some Hemisphere.north)).poleward_affinity
        = some p → -1 ≤ p ∧ p ≤ 1) ∧
    (-1 ≤ (bearingStatsOf [0] [1] [2] (some Hemisphere.north)).eastward_affinity ∧
      (bearingStatsOf [0] [1] [2] (some Hemisphere.north)).eastward_affinity ≤ 1) := by
  exact C3_range_invariants [0] [1] [2] (some Hemisphere.north) _
    (get_bearing_summary_stats_eq_some _ _ _ _ (by simp) (by simp))
    (by intro x hx; simp at hx; simp [hx]) (by norm_num)

/-! ## Claim C6 -/

/-- C6 counterexample: the alignment invariant does not survive the independent
7-decimal rounding of the output fields.  For net 1e-8 and cum 3e-8 the
returned bearing_magnitude_cum rounds to 0 while bearing_alignment is
0.3333333, so the returned fields do not satisfy the claimed relation
(alignment = net/cum when cum is non-zero, else 0). -/
theorem C6_counterexample :
    ∃ s, get_bearing_summary_stats [0] (some [1 / 100000000])
        (some [3 / 100000000]) none = some s ∧
      s.bearing_magnitude_cum = 0 ∧ ¬ s.bearing_alignment = 0 := by
  refine ⟨bearingStatsOf [0] [1 / 100000000] [3 / 100000000] none,
    get_bearing_summary_stats_eq_some _ _ _ _ (by simp) (by simp), ?_, ?_⟩
  · rw [bearingStatsOf_cum]
    have hsum : ([3 / 100000000] : List ℝ).sum = 3 / 100000000 := by simp
    rw [hsum, roundDec_eq_of 7 _ 0 (by norm_num) (by norm_num)]
    norm_num
  · have htot : totalComplexOf [0] [1 / 100000000] = ((1 / 100000000 : ℝ) : ℂ) := by
      simp [totalComplexOf, deg2rad]
    rw [bearingStatsOf_alignment, htot]
    have habs : Complex.abs ((1 / 100000000 : ℝ) : ℂ) = 1 / 100000000 := by
      rw [Complex.abs_ofReal]
      norm_num
    have hsum : ([3 / 100000000] : List ℝ).sum = 3 / 100000000 := by simp
    rw [hsum, if_pos (by norm_num), habs]
    have hdiv : (1 / 100000000 : ℝ) / (3 / 100000000) = 1 / 3 := by norm_num
    rw [hdiv, roundDec_eq_of 7 _ 3333333 (by norm_num) (by norm_num)]
    norm_num

/-- C6 amended: before the final rounding the source's alignment is exactly
net/cum when the cumulative total exceeds the 1e-10 epsilon and exactly 0
otherwise (including non-zero cumulative totals at or below the epsilon);
the returned field is the 7-decimal rounding of that value, and the invariant
is not preserved between the independently rounded output fields. -/
theorem C6_alignment_formula (bs ns cs : List ℝ) (h : Option Hemisphere)
    (s : BearingStatsModel)
    (hs : get_bearing_summary_stats bs (some ns) (some cs) h = some s) :
    (cs.sum > 1e-10 →
      s.bearing_alignment =
        roundDec 7 (Complex.abs (totalComplexOf bs ns) / cs.sum)) ∧
    (cs.sum ≤ 1e-10 → s.bearing_alignment = 0) := by
  obtain ⟨rfl, _, _⟩ := get_bearing_summary_stats_some_inv bs ns cs h s hs
  constructor
  · intro hgt
    rw [bearingStatsOf_alignment, if_pos hgt]
  · intro hle
    rw [bearingStatsOf_alignment, if_neg (not_lt.mpr hle), roundDec_zero]

/-- C6 witness: the amended alignment formula instantiated at a concrete input
whose cumulative total is above the epsilon, and at one at the epsilon. -/
theorem C6_alignment_formula_witness :
    ((2 : ℝ) > 1e-10 →
      (bearingStatsOf [0] [1] [2] none).bearing_alignment =
        roundDec 7 (Complex.abs (totalComplexOf [0] [1]) / 2)) ∧
    ((2 : ℝ) ≤ 1e-10 → (bearingStatsOf [0] [1] [2] none).bearing_alignment = 0) := by
  have h := C6_alignment_formula [0] [1] [2] none _
    (get_bearing_summary_stats_eq_some _ _ _ _ (by simp) (by simp))
  simpa using h

/-! ## Claim C10 -/

/-- C10: when the surviving rows carry both a north and a south hemisphere tag,
the unique-unpacking in _get_bearing_summary_stats_pl raises the caught
ValueError, so the statistics are computed with hemisphere None: the group's
poleward_affinity is null while all other fields (eastward_affinity included)
are computed as for an unknown hemisphere. -/
theorem C10_mixed_hemispheres (rows : List BearingStatsRow)
    (hn : Hemisphere.north ∈ (dropNullRows rows).map (fun r => r.2.2.2))
    (hs : Hemisphere.south ∈ (dropNullRows rows).map (fun r => r.2.2.2)) :
    get_bearing_summary_stats_pl rows =
      get_bearing_summary_stats ((dropNullRows rows).map fun r => r.1)
        (some ((dropNullRows rows).map fun r => r.2.1))
        (some ((dropNullRows rows).map fun r => r.2.2.1)) none ∧
    ∀ s, get_bearing_summary_stats_pl rows = some s →
      s.poleward_affinity = none := by
  have hne : ∀ h₀ : Hemisphere,
      ((dropNullRows rows).map (fun r => r.2.2.2)).dedup ≠ [h₀] := by
    intro h₀ heq
    have h1 : Hemisphere.north ∈
        ((dropNullRows rows).map (fun r => r.2.2.2)).dedup := List.mem_dedup.mpr hn
    have h2 : Hemisphere.south ∈
        ((dropNullRows rows).map (fun r => r.2.2.2)).dedup := List.mem_dedup.mpr hs
    rw [heq] at h1 h2
    simp only [List.mem_singleton] at h1 h2
    rw [← h2] at h1
    exact Hemisphere.noConfusion h1
  constructor
  · simp only [get_bearing_summary_stats_pl]
  · intro s hsome
    simp only [get_bearing_summary_stats_pl] at hsome
    obtain ⟨rfl, _, _⟩ := get_bearing_summary_stats_some_inv _ _ _ _ s hsome
    exact bearingStatsOf_poleward_none _ _ _

/-- C10 witness: a concrete two-row group with one north and one south entity
resolves the hemisphere to None and yields a null poleward affinity. -/
theorem C10_mixed_hemispheres_witness :
    get_bearing_summary_stats_pl
        [⟨some 0, some 1, some 1, some Hemisphere.north⟩,
         ⟨some 90, some 1, some 1, some Hemisphere.south⟩] =
      get_bearing_summary_stats [0, 90] (some [1, 1]) (some [1, 1]) none ∧
    ∀ s, get_bearing_summary_stats_pl
        [⟨some 0, some 1, some 1, some Hemisphere.north⟩,
         ⟨some 90, some 1, some 1, some Hemisphere.south⟩] = some s →
      s.poleward_affinity = none := by
  have h := C10_mixed_hemispheres
    [⟨some 0, some 1, some 1, some Hemisphere.north⟩,
     ⟨some 90, some 1, some 1, some Hemisphere.south⟩]
    (by simp [dropNullRows]) (by simp [dropNullRows])
  simpa [dropNullRows] using h

/-! ## Claim C2 -/

lemma arg_exp_near_two_pi (x : ℝ) (h1 : -Real.pi < x - 2 * Real.pi)
    (h2 : x - 2 * Real.pi ≤ Real.pi) :
    Complex.arg (Complex.exp ((x : ℝ) * Complex.I)) = x - 2 * Real.pi := by
  have hshift : ((x : ℝ) : ℂ) * Complex.I =
      ((x - 2 * Real.pi : ℝ) : ℂ) * Complex.I +
        ((1 : ℤ) : ℂ) * (2 * (Real.pi : ℂ) * Complex.I) := by
    push_cast
    ring
  rw [hshift, Complex.exp_add, Complex.exp_int_mul_two_pi_mul_I, mul_one,
    Complex.exp_mul_I]
  exact Complex.arg_cos_add_sin_mul_I ⟨h1, h2⟩

/-- C2 code bug: a bearing strictly below 360 drives the returned bearing_mean
to exactly 360.0.  For the single bearing 359.999999995 the mean angle is
about -8.7e-11 radians, np.round(-, 10) turns it into -1e-10, converting to
degrees and taking modulo 360 gives 360 minus about 5.7e-9, and the final
7-decimal rounding returns exactly 360.0 - violating the documented guarantee
bearing_mean in [0, 360) (and the model's own lt=360 field constraint). -/
theorem C2_bearing_mean_reaches_360 :
    ∃ s, get_bearing_summary_stats [359.999999995] (some [1]) (some [1]) none
        = some s ∧ s.bearing_mean = 360 := by
  refine ⟨_, get_bearing_summary_stats_eq_some _ _ _ _ (by simp) (by simp), ?_⟩
  have hπ₁ := Real.pi_gt_d6
  have hπ₂ := Real.pi_lt_d6
  have hπ0 := Real.pi_pos
  have htot : totalComplexOf [359.999999995] [1] =
      Complex.exp ((deg2rad (359.999999995 : ℝ) : ℝ) * Complex.I) := by
    simp [totalComplexOf]
  have habs : Complex.abs (totalComplexOf [359.999999995] [1]) = 1 := by
    rw [htot, Complex.abs_exp_ofReal_mul_I]
  have hsub : deg2rad (359.999999995 : ℝ) - 2 * Real.pi
      = -(Real.pi / 36000000000) := by
    unfold deg2rad
    rw [show (359.999999995 : ℝ) * (Real.pi / 180) - 2 * Real.pi
        = (359.999999995 / 180 - 2) * Real.pi by ring,
      show (359.999999995 / 180 - 2 : ℝ) = -(1 / 36000000000) by norm_num]
    ring
  have harg : Complex.arg (totalComplexOf [359.999999995] [1])
      = -(Real.pi / 36000000000) := by
    rw [htot, arg_exp_near_two_pi _ (by rw [hsub]; nlinarith) (by rw [hsub]; nlinarith),
      hsub]
  have h10 : (-(Real.pi / 36000000000) : ℝ) * 10 ^ 10 = -(5 / 18 * Real.pi) := by
    rw [show ((10 : ℝ) ^ 10) = 10000000000 by norm_num]
    ring
  have hr10 : roundDec 10 (-(Real.pi / 36000000000)) = -1 / 10 ^ 10 := by
    rw [roundDec_eq_of 10 _ (-1) (by rw [h10]; push_cast; nlinarith)
      (by rw [h10]; push_cast; nlinarith)]
    push_cast
    ring
  have hy : rad2deg (-1 / 10 ^ 10 : ℝ) = -(180 / (10 ^ 10 * Real.pi)) := by
    unfold rad2deg
    field_simp
  have hy0 : (0 : ℝ) < 180 / (10 ^ 10 * Real.pi) := by positivity
  have hy6 : (180 / (10 ^ 10 * Real.pi) : ℝ) < 6 / 10 ^ 9 := by
    rw [div_lt_div_iff₀ (by positivity) (by positivity)]
    nlinarith
  have hfloor : ⌊(-(180 / (10 ^ 10 * Real.pi)) : ℝ) / 360⌋ = -1 := by
    rw [Int.floor_eq_iff]
    constructor
    · push_cast
      rw [le_div_iff₀ (by norm_num : (0:ℝ) < 360)]
      nlinarith
    · push_cast
      rw [div_lt_iff₀ (by norm_num : (0:ℝ) < 360)]
      nlinarith
  have hmod : floatMod (-(180 / (10 ^ 10 * Real.pi))) 360
      = 360 - 180 / (10 ^ 10 * Real.pi) := by
    unfold floatMod
    rw [hfloor]
    push_cast
    ring
  rw [bearingStatsOf_mean, habs, if_pos (by norm_num : (1:ℝ) > 1e-10), harg,
    hr10, hy, hmod]
  rw [roundDec_eq_of 7 _ 3600000000 (by push_cast; nlinarith)
    (by push_cast; nlinarith)]
  norm_num


/-! ## Claim C1 -/

lemma totalComplexOf_map {α : Type} (l : List α) (f g : α → ℝ) :
    totalComplexOf (l.map f) (l.map g)
      = (l.map fun x => ((g x : ℝ) : ℂ) *
          Complex.exp ((deg2rad (f x) : ℝ) * Complex.I)).sum := by
  unfold totalComplexOf
  rw [List.zip_map', List.map_map]
  rfl

lemma sum_map_flatten {α β : Type} [AddCommMonoid β] (L : List (List α)) (f : α → β) :
    ((L.flatten).map f).sum = (L.map fun e => (e.map f).sum).sum := by
  induction L with
  | nil => simp
  | cons a t ih => simp [ih, Function.comp_def]

/-- Reconstruction identity at the heart of the aggregator: scaling the unit
vector of the stored mean bearing (degrees, reduced modulo 360) by the stored
resultant magnitude recovers the resultant vector exactly. -/
lemma reconstruct_vector (z : ℂ) :
    ((Complex.abs z : ℝ) : ℂ) *
      Complex.exp ((deg2rad (floatMod (rad2deg (Complex.arg z)) 360) : ℝ)
        * Complex.I) = z := by
  have hπ : Real.pi ≠ 0 := Real.pi_ne_zero
  have hdeg : deg2rad (floatMod (rad2deg (Complex.arg z)) 360)
      = Complex.arg z - 2 * Real.pi * (⌊rad2deg (Complex.arg z) / 360⌋ : ℤ) := by
    unfold deg2rad rad2deg floatMod
    field_simp
    ring
  rw [hdeg]
  have hshift : ((Complex.arg z - 2 * Real.pi *
        (⌊rad2deg (Complex.arg z) / 360⌋ : ℤ) : ℝ) : ℂ) * Complex.I
      = (Complex.arg z : ℂ) * Complex.I -
        ((⌊rad2deg (Complex.arg z) / 360⌋ : ℤ) : ℂ)
          * (2 * (Real.pi : ℂ) * Complex.I) := by
    push_cast
    ring
  rw [hshift, Complex.exp_sub, Complex.exp_int_mul_two_pi_mul_I, div_one,
    Complex.abs_mul_exp_arg_mul_I]

lemma bearingStatsExact_congr (b1 n1 c1 b2 n2 c2 : List ℝ) (h : Option Hemisphere)
    (htot : totalComplexOf b1 n1 = totalComplexOf b2 n2) (hcum : c1.sum = c2.sum) :
    bearingStatsExact b1 n1 c1 h = bearingStatsExact b2 n2 c2 h := by
  unfold bearingStatsExact
  rw [htot, hcum]

lemma segmentStats_def (segs : List Segment) (h : Option Hemisphere) :
    segmentStats segs h = bearingStatsExact (segs.map Segment.bearing)
      (segs.map Segment.net_magnitude) (segs.map Segment.cum_magnitude) h := rfl

lemma segmentStats_mean (e : List Segment) (h : Option Hemisphere) :
    (segmentStats e h).bearing_mean =
      floatMod (rad2deg (if Complex.abs (totalComplexOf (e.map Segment.bearing)
          (e.map Segment.net_magnitude)) > 1e-10 then
        Complex.arg (totalComplexOf (e.map Segment.bearing)
          (e.map Segment.net_magnitude)) else 0)) 360 := rfl

lemma segmentStats_net (e : List Segment) (h : Option Hemisphere) :
    (segmentStats e h).bearing_magnitude_net =
      Complex.abs (totalComplexOf (e.map Segment.bearing)
        (e.map Segment.net_magnitude)) := rfl

lemma segmentStats_cum (e : List Segment) (h : Option Hemisphere) :
    (segmentStats e h).bearing_magnitude_cum =
      (e.map Segment.cum_magnitude).sum := rfl

/-- C1: re-aggregation equivalence under exact arithmetic.  For any partition
of the segments into entities whose resultant magnitudes clear the source's
1e-10 epsilon guard, reducing each entity with the statistics computer and
re-running the computer on the stored per-entity columns (bearing_mean as
bearing, bearing_magnitude_net as weight, bearing_magnitude_cum summed), as
aggregate_ski_areas_pl does, returns the same summary record - every field -
as a single pass over the union of the raw segments. -/
theorem C1_reaggregation_equivalence (entities : List (List Segment))
    (h : Option Hemisphere)
    (hguard : ∀ e ∈ entities, (1e-10 : ℝ) <
      Complex.abs (totalComplexOf (e.map Segment.bearing)
        (e.map Segment.net_magnitude))) :
    twoPassStats entities h = onePassStats entities h := by
  have key : totalComplexOf
      ((entities.map fun e => segmentStats e h).map BearingStatsModel.bearing_mean)
      ((entities.map fun e => segmentStats e h).map
        BearingStatsModel.bearing_magnitude_net)
      = totalComplexOf (entities.flatten.map Segment.bearing)
          (entities.flatten.map Segment.net_magnitude) := by
    rw [List.map_map, List.map_map]
    simp only [Function.comp_def]
    rw [totalComplexOf_map, totalComplexOf_map, sum_map_flatten]
    congr 1
    apply List.map_congr_left
    intro e he
    rw [segmentStats_net, segmentStats_mean, if_pos (hguard e he),
      reconstruct_vector]
    exact totalComplexOf_map e Segment.bearing Segment.net_magnitude
  have hcum : ((entities.map fun e => segmentStats e h).map
        BearingStatsModel.bearing_magnitude_cum).sum
      = (entities.flatten.map Segment.cum_magnitude).sum := by
    rw [List.map_map]
    simp only [Function.comp_def]
    rw [sum_map_flatten]
    congr 1
  unfold twoPassStats onePassStats
  rw [segmentStats_def]
  exact bearingStatsExact_congr _ _ _ _ _ _ h key hcum

/-- C1 witness: two singleton entities bearing north and east with unit
magnitudes; the aggregated two-pass summary coincides with the single-pass
summary over both segments. -/
theorem C1_reaggregation_equivalence_witness :
    twoPassStats [[⟨0, 1, 1⟩], [⟨90, 1, 1⟩]] (some Hemisphere.north) =
      onePassStats [[⟨0, 1, 1⟩], [⟨90, 1, 1⟩]] (some Hemisphere.north) := by
  apply C1_reaggregation_equivalence
  intro e he
  simp only [List.mem_cons, List.not_mem_nil, or_false] at he
  rcases he with rfl | rfl
  · have h1 : totalComplexOf (([⟨0, 1, 1⟩] : List Segment).map Segment.bearing)
        (([⟨0, 1, 1⟩] : List Segment).map Segment.net_magnitude) = 1 := by
      simp [totalComplexOf, deg2rad]
    rw [h1, map_one]
    norm_num
  · have h2 : totalComplexOf (([⟨90, 1, 1⟩] : List Segment).map Segment.bearing)
        (([⟨90, 1, 1⟩] : List Segment).map Segment.net_magnitude)
        = Complex.exp ((deg2rad (90 : ℝ) : ℝ) * Complex.I) := by
      simp [totalComplexOf]
    rw [h2, Complex.abs_exp_ofReal_mul_I]
    norm_num

/-! ## Claim C4 -/

/-- C4 counterexample: on zero total weight the per-entity histogram builder
get_bearing_histogram does not define bin_proportion as 0 - the polars column
division 0/0 produces NaN (modelled by none), so the claim that both builders
return proportion exactly 0 fails at the entity level. -/
theorem C4_counterexample :
    ∃ b ∈ get_bearing_histogram [] [] 2, ¬ b.bin_proportion = some 0 := by
  with_unfolding_all decide

/-- C4 amended: on zero total weight every bin_count is 0 at both levels, the
group-level aggregation defines bin_proportion as exactly 0 (its explicit
when/otherwise branch), but the per-entity builder produces the NaN of 0/0
(modelled by none), not 0. -/
theorem C4_zero_weight_proportions (entityBins : List (List BearingBin))
    (n i : ℕ) (bearings weights : List ℚ) (m : ℕ)
    (hagg : agg_bin_count_total entityBins n = 0)
    (hw : ∀ w ∈ weights, w = 0) :
    agg_bin_proportion entityBins n i = 0 ∧
    ∀ b ∈ get_bearing_histogram bearings weights m,
      b.bin_count = 0 ∧ b.bin_proportion = none := by
  have hz : ∀ j : ℕ, splitBinCount bearings weights m j = 0 := by
    intro j
    unfold splitBinCount
    apply List.sum_eq_zero
    intro x hx
    simp only [List.mem_map] at hx
    obtain ⟨⟨b, w⟩, hbw, rfl⟩ := hx
    exact hw w (List.of_mem_zip (List.mem_of_mem_filter hbw)).2
  have hrz : ∀ j : ℕ, rolledBinCount bearings weights m j = 0 := by
    intro j
    unfold rolledBinCount
    split <;> exact hz _
  have hmz : ∀ j : ℕ, mergedBinCount bearings weights m j = 0 := by
    intro j
    unfold mergedBinCount
    rw [hrz, hrz]
    ring
  have htz : histogramTotal bearings weights m = 0 := by
    unfold histogramTotal
    apply List.sum_eq_zero
    intro x hx
    simp only [List.mem_map] at hx
    obtain ⟨j, _, rfl⟩ := hx
    exact hmz j
  constructor
  · simp [agg_bin_proportion, hagg]
  · intro b hb
    simp only [get_bearing_histogram, List.mem_map, List.mem_range] at hb
    obtain ⟨j, _, rfl⟩ := hb
    exact ⟨hmz j, by simp [htz]⟩

/-- C4 witness: the amended statement at the empty group and a single
zero-weight bearing with two bins. -/
theorem C4_zero_weight_proportions_witness :
    agg_bin_proportion [] 2 1 = 0 ∧
    ∀ b ∈ get_bearing_histogram [0] [0] 2,
      b.bin_count = 0 ∧ b.bin_proportion = none := by
  exact C4_zero_weight_proportions [] 2 1 [0] [0] 2
    (by with_unfolding_all decide) (by intro w hw; simpa using hw)

/-! ## Claim C7 -/

lemma list_range_map_sum {β : Type} [AddCommMonoid β] (n : ℕ) (f : ℕ → β) :
    ((List.range n).map f).sum = ∑ i ∈ Finset.range n, f i := by
  induction n with
  | zero => simp
  | succ m ih =>
    rw [List.range_succ, List.map_append, List.sum_append, Finset.sum_range_succ, ih]
    simp

lemma sum_range_pairs (n : ℕ) (g : ℕ → ℚ) :
    (∑ i ∈ Finset.range n, (g (2 * i) + g (2 * i + 1)))
      = ∑ j ∈ Finset.range (2 * n), g j := by
  induction n with
  | zero => simp
  | succ m ih =>
    rw [Finset.sum_range_succ, ih, show 2 * (m + 1) = 2 * m + 1 + 1 by ring,
      Finset.sum_range_succ, Finset.sum_range_succ]
    ring

lemma sum_rolled (bs ws : List ℚ) (n : ℕ) (hn : 0 < n) :
    (∑ j ∈ Finset.range (2 * n), rolledBinCount bs ws n j)
      = ∑ j ∈ Finset.range (2 * n), splitBinCount bs ws n j := by
  obtain ⟨m, hm⟩ : ∃ m, 2 * n = m + 1 := ⟨2 * n - 1, by omega⟩
  have h1 : ∀ j : ℕ, rolledBinCount bs ws n (j + 1) = splitBinCount bs ws n j := by
    intro j
    unfold rolledBinCount
    simp
  have h0 : rolledBinCount bs ws n 0 = splitBinCount bs ws n m := by
    unfold rolledBinCount
    rw [if_pos rfl]
    congr 1
    omega
  rw [hm, Finset.sum_range_succ', Finset.sum_range_succ]
  simp only [h1, h0]

lemma sum_filter_partition {α : Type} (l : List α) (f : α → ℚ)
    (P : ℕ → α → Bool) (n : ℕ)
    (hx : ∀ x ∈ l, ∃ i, i < n ∧ P i x = true ∧
      ∀ j, j < n → P j x = true → j = i) :
    (∑ i ∈ Finset.range n, ((l.filter (P i)).map f).sum) = (l.map f).sum := by
  induction l with
  | nil => simp
  | cons a t ih =>
    have hxt : ∀ x ∈ t, ∃ i, i < n ∧ P i x = true ∧
        ∀ j, j < n → P j x = true → j = i :=
      fun x hxm => hx x (List.mem_cons_of_mem a hxm)
    obtain ⟨i₀, hi₀n, hPi₀, huniq⟩ := hx a (List.mem_cons_self a t)
    have hsplit : ∀ i : ℕ, (((a :: t).filter (P i)).map f).sum
        = (if P i a then f a else 0) + ((t.filter (P i)).map f).sum := by
      intro i
      by_cases hp : P i a
      · simp [List.filter_cons, hp]
      · simp [List.filter_cons, hp]
    simp only [hsplit]
    rw [Finset.sum_add_distrib, ih hxt]
    have hone : (∑ i ∈ Finset.range n, if P i a then f a else 0) = f a := by
      rw [Finset.sum_eq_single i₀]
      · simp [hPi₀]
      · intro j hj hne
        have hPj : ¬ P j a = true :=
          fun hPj => hne (huniq j (Finset.mem_range.mp hj) hPj)
        simp [hPj]
      · intro habs
        exact absurd (Finset.mem_range.mpr hi₀n) habs
    rw [hone]
    simp

lemma splitInBin_iff (n j : ℕ) (b : ℚ) (hb1 : b < 360) :
    splitInBin n j b = true ↔
      ((j : ℚ) * (360 / (2 * n)) ≤ b ∧ b < ((j : ℚ) + 1) * (360 / (2 * n))) := by
  unfold splitInBin
  rw [decide_eq_true_eq]
  constructor
  · rintro ⟨h1, h2 | ⟨-, h3⟩⟩
    · exact ⟨h1, h2⟩
    · exact absurd h3 (by intro h; rw [h] at hb1; exact lt_irrefl _ hb1)
  · rintro ⟨h1, h2⟩
    exact ⟨h1, Or.inl h2⟩

lemma splitInBin_exists_unique (n : ℕ) (hn : 0 < n) (b : ℚ)
    (hb0 : 0 ≤ b) (hb1 : b < 360) :
    ∃ i, i < 2 * n ∧ splitInBin n i b = true ∧
      ∀ j, j < 2 * n → splitInBin n j b = true → j = i := by
  have hnq : (0 : ℚ) < (n : ℚ) := by exact_mod_cast hn
  set H : ℚ := 360 / (2 * (n : ℚ)) with hH
  have hHpos : 0 < H := by rw [hH]; positivity
  have h2nH : (2 * (n : ℚ)) * H = 360 := by
    rw [hH]
    field_simp
  have hfl0 : 0 ≤ ⌊b / H⌋ := Int.floor_nonneg.mpr (by positivity)
  have hflt : ⌊b / H⌋ < 2 * (n : ℤ) := by
    rw [Int.floor_lt]
    push_cast
    rw [div_lt_iff₀ hHpos]
    nlinarith
  refine ⟨(⌊b / H⌋).toNat, ?_, ?_, ?_⟩
  · omega
  · rw [splitInBin_iff n _ b hb1, ← hH]
    have hcast : (((⌊b / H⌋).toNat : ℕ) : ℚ) = ((⌊b / H⌋ : ℤ) : ℚ) := by
      exact_mod_cast Int.toNat_of_nonneg hfl0
    constructor
    · rw [hcast]
      calc ((⌊b / H⌋ : ℤ) : ℚ) * H ≤ (b / H) * H := by
            apply mul_le_mul_of_nonneg_right (Int.floor_le _) (le_of_lt hHpos)
        _ = b := by field_simp
    · rw [hcast]
      calc b = (b / H) * H := by field_simp
        _ < ((⌊b / H⌋ : ℤ) + 1 : ℚ) * H := by
            apply mul_lt_mul_of_pos_right (Int.lt_floor_add_one _) hHpos
  · intro j hj hmem
    rw [splitInBin_iff n j b hb1, ← hH] at hmem
    obtain ⟨hj1, hj2⟩ := hmem
    have hfloor : ⌊b / H⌋ = (j : ℤ) := by
      rw [Int.floor_eq_iff]
      constructor
      · push_cast
        rw [le_div_iff₀ hHpos]
        nlinarith
      · push_cast
        rw [div_lt_iff₀ hHpos]
        nlinarith
    omega

lemma histogramTotal_eq_weight_sum (bs ws : List ℚ) (n : ℕ) (hn : 0 < n)
    (hlen : bs.length = ws.length) (hb : ∀ b ∈ bs, 0 ≤ b ∧ b < 360) :
    histogramTotal bs ws n = ws.sum := by
  have hpairs : ∀ bw ∈ bs.zip ws, ∃ i, i < 2 * n ∧
      (fun (j : ℕ) (x : ℚ × ℚ) => splitInBin n j x.1) i bw = true ∧
      ∀ j, j < 2 * n →
        (fun (j : ℕ) (x : ℚ × ℚ) => splitInBin n j x.1) j bw = true → j = i := by
    rintro ⟨b, w⟩ hbw
    obtain ⟨hmem, -⟩ := List.of_mem_zip hbw
    obtain ⟨hb0, hb1⟩ := hb b hmem
    exact splitInBin_exists_unique n hn b hb0 hb1
  calc histogramTotal bs ws n
      = ∑ i ∈ Finset.range n, mergedBinCount bs ws n i := by
        unfold histogramTotal
        rw [list_range_map_sum]
    _ = ∑ j ∈ Finset.range (2 * n), rolledBinCount bs ws n j := by
        unfold mergedBinCount
        rw [sum_range_pairs]
    _ = ∑ j ∈ Finset.range (2 * n), splitBinCount bs ws n j := sum_rolled bs ws n hn
    _ = ((bs.zip ws).map Prod.snd).sum :=
        sum_filter_partition (bs.zip ws) Prod.snd _ (2 * n) hpairs
    _ = ws.sum := by rw [List.map_snd_zip bs ws (le_of_eq hlen.symm)]

lemma get_bearing_histogram_length (bs ws : List ℚ) (n : ℕ) :
    (get_bearing_histogram bs ws n).length = n := by
  unfold get_bearing_histogram
  simp

/-- C7: for every positive bin count (in particular 2, 4, 8 and 32) and
bearings inside [0, 360), get_bearing_histogram returns exactly n bins, the
bin_count values sum exactly to the sum of the input weights, and the
bin_proportion values sum exactly to 1 whenever the total weight is
non-zero. -/
theorem C7_histogram_mass_conservation (n : ℕ) (bearings weights : List ℚ)
    (hn : 0 < n) (hlen : bearings.length = weights.length)
    (hb : ∀ b ∈ bearings, 0 ≤ b ∧ b < 360) :
    (get_bearing_histogram bearings weights n).length = n ∧
    ((get_bearing_histogram bearings weights n).map BearingBin.bin_count).sum
      = weights.sum ∧
    (weights.sum ≠ 0 →
      ((get_bearing_histogram bearings weights n).map
        (fun b => b.bin_proportion.getD 0)).sum = 1) := by
  have hTW : histogramTotal bearings weights n = weights.sum :=
    histogramTotal_eq_weight_sum bearings weights n hn hlen hb
  refine ⟨get_bearing_histogram_length _ _ _, ?_, ?_⟩
  · have hcounts : ((get_bearing_histogram bearings weights n).map
        BearingBin.bin_count).sum = histogramTotal bearings weights n := by
      unfold get_bearing_histogram histogramTotal
      rw [List.map_map]
      rfl
    rw [hcounts, hTW]
  · intro hw
    have hT0 : histogramTotal bearings weights n ≠ 0 := by rw [hTW]; exact hw
    have hprops : ((get_bearing_histogram bearings weights n).map
        (fun b => b.bin_proportion.getD 0))
        = (List.range n).map (fun i => mergedBinCount bearings weights n i /
            histogramTotal bearings weights n) := by
      unfold get_bearing_histogram
      rw [List.map_map]
      apply List.map_congr_left
      intro i _
      simp [Function.comp, hT0]
    rw [hprops, list_range_map_sum, ← Finset.sum_div]
    have hsum : (∑ i ∈ Finset.range n, mergedBinCount bearings weights n i)
        = histogramTotal bearings weights n := by
      unfold histogramTotal
      rw [list_range_map_sum]
    rw [hsum, div_self hT0]

/-- C7 witness: mass conservation evaluated for four bins over two weighted
bearings. -/
theorem C7_histogram_mass_conservation_witness :
    (get_bearing_histogram [0, 90] [2, 3] 4).length = 4 ∧
    ((get_bearing_histogram [0, 90] [2, 3] 4).map BearingBin.bin_count).sum
      = ([2, 3] : List ℚ).sum ∧
    (([2, 3] : List ℚ).sum ≠ 0 →
      ((get_bearing_histogram [0, 90] [2, 3] 4).map
        (fun b => b.bin_proportion.getD 0)).sum = 1) := by
  exact C7_histogram_mass_conservation 4 [0, 90] [2, 3] (by norm_num) (by simp)
    (by intro b hb
        simp only [List.mem_cons, List.not_mem_nil, or_false] at hb
        rcases hb with rfl | rfl <;> norm_num)

/-! ## Claim C9 -/

/-- Rational counterpart of the Python modulo, used to state the circular
neighborhood characterization of the merged bins. -/
def qmod (x m : ℚ) : ℚ := x - m * ⌊x / m⌋

/-- Stated from the claim's neighborhood characterization (the spec's
bin-edge-avoidance contract): the total weight of bearings lying within 180/n
degrees of the center i*360/n, taken modulo 360, with the half-open convention
that the left endpoint center - 180/n is included and the right endpoint is
not. -/
def nearCenterWeight (bearings weights : List ℚ) (n i : ℕ) : ℚ :=
  (((bearings.zip weights).filter fun bw =>
      decide (qmod (bw.1 + 180 / n - (i : ℚ) * (360 / n)) 360 < 360 / n)).map
    Prod.snd).sum

lemma qmod_of_nonneg_lt (x : ℚ) (h0 : 0 ≤ x) (h1 : x < 360) : qmod x 360 = x := by
  unfold qmod
  have hf : ⌊x / 360⌋ = 0 := by
    rw [Int.floor_eq_zero_iff]
    constructor
    · positivity
    · rw [div_lt_one (by norm_num : (0:ℚ) < 360)]
      linarith
  rw [hf]
  push_cast
  ring

lemma qmod_of_neg (x : ℚ) (h0 : -360 ≤ x) (h1 : x < 0) : qmod x 360 = x + 360 := by
  unfold qmod
  have hf : ⌊x / 360⌋ = -1 := by
    rw [Int.floor_eq_iff]
    constructor
    · push_cast
      rw [le_div_iff₀ (by norm_num : (0:ℚ) < 360)]
      linarith
    · push_cast
      rw [div_lt_iff₀ (by norm_num : (0:ℚ) < 360)]
      linarith
  rw [hf]
  push_cast
  ring

lemma qmod_of_ge (x : ℚ) (h0 : 360 ≤ x) (h1 : x < 720) : qmod x 360 = x - 360 := by
  unfold qmod
  have hf : ⌊x / 360⌋ = 1 := by
    rw [Int.floor_eq_iff]
    constructor
    · push_cast
      rw [le_div_iff₀ (by norm_num : (0:ℚ) < 360)]
      linarith
    · push_cast
      rw [div_lt_iff₀ (by norm_num : (0:ℚ) < 360)]
      linarith
  rw [hf]
  push_cast
  ring

lemma sum_filter_or {α : Type} (l : List α) (f : α → ℚ) (p q : α → Bool)
    (hd : ∀ x ∈ l, ¬(p x = true ∧ q x = true)) :
    ((l.filter p).map f).sum + ((l.filter q).map f).sum
      = ((l.filter fun x => p x || q x).map f).sum := by
  induction l with
  | nil => simp
  | cons a t ih =>
    have hdt : ∀ x ∈ t, ¬(p x = true ∧ q x = true) :=
      fun x hx => hd x (List.mem_cons_of_mem a hx)
    have ha := hd a (List.mem_cons_self a t)
    simp only [List.filter_cons]
    by_cases hp : p a = true <;> by_cases hq : q a = true
    · exact absurd ⟨hp, hq⟩ ha
    · have hor : (p a || q a) = true := by simp [hp]
      simp only [if_pos hp, if_neg hq, if_pos hor, List.map_cons, List.sum_cons]
      rw [← ih hdt]
      ring
    · have hor : (p a || q a) = true := by simp [hq]
      simp only [if_neg hp, if_pos hq, if_pos hor, List.map_cons, List.sum_cons]
      rw [← ih hdt]
      ring
    · have hor : ¬ (p a || q a) = true := by simp [hp, hq]
      simp only [if_neg hp, if_neg hq, if_neg hor]
      exact ih hdt

lemma near_iff_split_pos (n i : ℕ) (b : ℚ) (hn : 0 < n) (hip : 0 < i)
    (hi : i < n) (hb0 : 0 ≤ b) (hb1 : b < 360) :
    (splitInBin n (2 * i - 1) b || splitInBin n (2 * i) b)
      = decide (qmod (b + 180 / n - (i : ℚ) * (360 / n)) 360 < 360 / n) := by
  have hnq : (0 : ℚ) < (n : ℚ) := by exact_mod_cast hn
  have hA : (0 : ℚ) < 360 / (2 * (n : ℚ)) := by positivity
  have hnA : (n : ℚ) * (360 / (2 * (n : ℚ))) = 180 := by
    field_simp
    ring
  have h180 : (180 / (n : ℚ)) = 360 / (2 * (n : ℚ)) := by
    field_simp
    ring
  have h360n : (360 / (n : ℚ)) = 2 * (360 / (2 * (n : ℚ))) := by
    field_simp
    ring
  have hc1 : ((2 * i - 1 : ℕ) : ℚ) = 2 * (i : ℚ) - 1 := by
    rw [Nat.cast_sub (by omega : 1 ≤ 2 * i)]
    push_cast
    ring
  have hi1 : (1 : ℚ) ≤ (i : ℚ) := by exact_mod_cast hip
  have hin : (i : ℚ) ≤ (n : ℚ) - 1 := by
    have : (i : ℚ) + 1 ≤ (n : ℚ) := by exact_mod_cast hi
    linarith
  have hx1 : 360 / (2 * (n : ℚ)) ≤ (i : ℚ) * (360 / (2 * (n : ℚ))) := by
    have h := mul_le_mul_of_nonneg_right hi1 (le_of_lt hA)
    simpa using h
  have hx2 : (i : ℚ) * (360 / (2 * (n : ℚ)))
      ≤ (n : ℚ) * (360 / (2 * (n : ℚ))) - 360 / (2 * (n : ℚ)) := by
    have h := mul_le_mul_of_nonneg_right hin (le_of_lt hA)
    calc (i : ℚ) * (360 / (2 * (n : ℚ)))
        ≤ ((n : ℚ) - 1) * (360 / (2 * (n : ℚ))) := h
      _ = (n : ℚ) * (360 / (2 * (n : ℚ))) - 360 / (2 * (n : ℚ)) := by ring
  rw [Bool.eq_iff_iff, Bool.or_eq_true, splitInBin_iff _ _ _ hb1,
    splitInBin_iff _ _ _ hb1, decide_eq_true_eq, hc1, h180, h360n]
  push_cast
  constructor
  · rintro (⟨h1, h2⟩ | ⟨h1, h2⟩)
    · rw [qmod_of_nonneg_lt _ (by linarith) (by linarith)]
      linarith
    · rw [qmod_of_nonneg_lt _ (by linarith) (by linarith)]
      linarith
  · intro hq
    by_cases hT : b + 360 / (2 * (n : ℚ)) - (i : ℚ) * (2 * (360 / (2 * (n : ℚ)))) < 0
    · rw [qmod_of_neg _ (by linarith) hT] at hq
      linarith
    · push_neg at hT
      rw [qmod_of_nonneg_lt _ hT (by linarith)] at hq
      rcases lt_or_le b (2 * (i : ℚ) * (360 / (2 * (n : ℚ)))) with hlt | hge
      · left
        constructor <;> linarith
      · right
        constructor <;> linarith

lemma near_iff_split_zero (n : ℕ) (b : ℚ) (hn : 0 < n)
    (hb0 : 0 ≤ b) (hb1 : b < 360) :
    (splitInBin n (2 * n - 1) b || splitInBin n 0 b)
      = decide (qmod (b + 180 / n - ((0 : ℕ) : ℚ) * (360 / n)) 360 < 360 / n) := by
  have hnq : (0 : ℚ) < (n : ℚ) := by exact_mod_cast hn
  have hA : (0 : ℚ) < 360 / (2 * (n : ℚ)) := by positivity
  have hnA : (n : ℚ) * (360 / (2 * (n : ℚ))) = 180 := by
    field_simp
    ring
  have h180 : (180 / (n : ℚ)) = 360 / (2 * (n : ℚ)) := by
    field_simp
    ring
  have h360n : (360 / (n : ℚ)) = 2 * (360 / (2 * (n : ℚ))) := by
    field_simp
    ring
  have hc1 : ((2 * n - 1 : ℕ) : ℚ) = 2 * (n : ℚ) - 1 := by
    rw [Nat.cast_sub (by omega : 1 ≤ 2 * n)]
    push_cast
    ring
  have hn1 : (1 : ℚ) ≤ (n : ℚ) := by exact_mod_cast hn
  have hx1 : 360 / (2 * (n : ℚ)) ≤ (n : ℚ) * (360 / (2 * (n : ℚ))) := by
    have h := mul_le_mul_of_nonneg_right hn1 (le_of_lt hA)
    simpa using h
  rw [Bool.eq_iff_iff, Bool.or_eq_true, splitInBin_iff _ _ _ hb1,
    splitInBin_iff _ _ _ hb1, decide_eq_true_eq, hc1, h180, h360n]
  push_cast
  constructor
  · rintro (⟨h1, h2⟩ | ⟨h1, h2⟩)
    · rw [qmod_of_ge _ (by linarith) (by linarith)]
      linarith
    · rw [qmod_of_nonneg_lt _ (by linarith) (by linarith)]
      linarith
  · intro hq
    rcases lt_or_le b (2 * (n : ℚ) * (360 / (2 * (n : ℚ))) - 360 / (2 * (n : ℚ)))
      with hsmall | hbig
    · rw [qmod_of_nonneg_lt _ (by linarith) (by linarith)] at hq
      right
      constructor <;> linarith
    · left
      constructor <;> linarith

lemma mergedBinCount_eq_nearCenterWeight (bs ws : List ℚ) (n i : ℕ)
    (hn : 0 < n) (hi : i < n) (hb : ∀ b ∈ bs, 0 ≤ b ∧ b < 360) :
    mergedBinCount bs ws n i = nearCenterWeight bs ws n i := by
  rcases Nat.eq_zero_or_pos i with rfl | hipos
  · have hmer : mergedBinCount bs ws n 0
        = splitBinCount bs ws n (2 * n - 1) + splitBinCount bs ws n 0 := by
      unfold mergedBinCount rolledBinCount
      norm_num
    have hdisj : ∀ x ∈ bs.zip ws,
        ¬((fun bw : ℚ × ℚ => splitInBin n (2 * n - 1) bw.1) x = true ∧
          (fun bw : ℚ × ℚ => splitInBin n 0 bw.1) x = true) := by
      rintro ⟨b, w⟩ hbw ⟨h1, h2⟩
      obtain ⟨hb0, hb1⟩ := hb b (List.of_mem_zip hbw).1
      rw [splitInBin_iff _ _ _ hb1] at h1 h2
      have hnq : (0 : ℚ) < (n : ℚ) := by exact_mod_cast hn
      have hA : (0 : ℚ) < 360 / (2 * (n : ℚ)) := by positivity
      have hnA : (n : ℚ) * (360 / (2 * (n : ℚ))) = 180 := by
        field_simp
        ring
      have hc1 : ((2 * n - 1 : ℕ) : ℚ) = 2 * (n : ℚ) - 1 := by
        rw [Nat.cast_sub (by omega : 1 ≤ 2 * n)]
        push_cast
        ring
      rw [hc1] at h1
      have hn1 : (1 : ℚ) ≤ (n : ℚ) := by exact_mod_cast hn
      have hx1 : 360 / (2 * (n : ℚ)) ≤ (n : ℚ) * (360 / (2 * (n : ℚ))) := by
        have h := mul_le_mul_of_nonneg_right hn1 (le_of_lt hA)
        simpa using h
      push_cast at h2
      linarith [h1.1, h2.2]
    rw [hmer]
    unfold splitBinCount
    rw [sum_filter_or _ _ _ _ hdisj]
    unfold nearCenterWeight
    congr 1
    congr 1
    apply List.filter_congr
    rintro ⟨b, w⟩ hbw
    obtain ⟨hb0, hb1⟩ := hb b (List.of_mem_zip hbw).1
    exact near_iff_split_zero n b hn hb0 hb1
  · have hmer : mergedBinCount bs ws n i
        = splitBinCount bs ws n (2 * i - 1) + splitBinCount bs ws n (2 * i) := by
      unfold mergedBinCount rolledBinCount
      rw [if_neg (by omega : ¬ 2 * i = 0), if_neg (by omega : ¬ 2 * i + 1 = 0),
        Nat.add_sub_cancel]
    have hdisj : ∀ x ∈ bs.zip ws,
        ¬((fun bw : ℚ × ℚ => splitInBin n (2 * i - 1) bw.1) x = true ∧
          (fun bw : ℚ × ℚ => splitInBin n (2 * i) bw.1) x = true) := by
      rintro ⟨b, w⟩ hbw ⟨h1, h2⟩
      obtain ⟨hb0, hb1⟩ := hb b (List.of_mem_zip hbw).1
      rw [splitInBin_iff _ _ _ hb1] at h1 h2
      have hc1 : ((2 * i - 1 : ℕ) : ℚ) = 2 * (i : ℚ) - 1 := by
        rw [Nat.cast_sub (by omega : 1 ≤ 2 * i)]
        push_cast
        ring
      rw [hc1] at h1
      push_cast at h2
      linarith [h1.2, h2.1]
    rw [hmer]
    unfold splitBinCount
    rw [sum_filter_or _ _ _ _ hdisj]
    unfold nearCenterWeight
    congr 1
    congr 1
    apply List.filter_congr
    rintro ⟨b, w⟩ hbw
    obtain ⟨hb0, hb1⟩ := hb b (List.of_mem_zip hbw).1
    exact near_iff_split_pos n i b hn hipos hi hb0 hb1

lemma getD_range_map {β : Type} (n i : ℕ) (f : ℕ → β) (d : β) (hi : i < n) :
    (((List.range n).map f).getD i d) = f i := by
  have hlen : i < ((List.range n).map f).length := by simpa using hi
  rw [List.getD_eq_getElem _ _ hlen]
  simp

/-- C9: the bin-edge-avoidance scheme.  get_bearing_histogram returns n bins;
the i-th bin (0-based here; the stored bin_index is i+1) is centered at
i*360/n, and its count is exactly the total weight of the bearings lying
within 180/n degrees of that center modulo 360 (half-open on the clockwise
side), so a bearing equal to a multiple of 360/n contributes its full weight
to the single bin centered there. -/
theorem C9_bin_edge_avoidance (n : ℕ) (bearings weights : List ℚ) (hn : 0 < n)
    (hb : ∀ b ∈ bearings, 0 ≤ b ∧ b < 360) :
    (get_bearing_histogram bearings weights n).length = n ∧
    ∀ i, i < n →
      ((get_bearing_histogram bearings weights n).getD i
          ⟨0, 0, 0, none, 0, none⟩).bin_index = i + 1 ∧
      ((get_bearing_histogram bearings weights n).getD i
          ⟨0, 0, 0, none, 0, none⟩).bin_center = (i : ℚ) * (360 / n) ∧
      ((get_bearing_histogram bearings weights n).getD i
          ⟨0, 0, 0, none, 0, none⟩).bin_count
        = nearCenterWeight bearings weights n i := by
  refine ⟨get_bearing_histogram_length _ _ _, ?_⟩
  intro i hi
  unfold get_bearing_histogram
  rw [getD_range_map _ _ _ _ hi]
  refine ⟨rfl, ?_, ?_⟩
  · show (2 * (i : ℚ)) * (360 / (2 * (n : ℚ))) = (i : ℚ) * (360 / (n : ℚ))
    have hnq : (0 : ℚ) < (n : ℚ) := by exact_mod_cast hn
    field_simp
    ring
  · exact mergedBinCount_eq_nearCenterWeight bearings weights n i hn hi hb

/-- C9 witness: the scheme evaluated for two bins over two weighted
bearings. -/
theorem C9_bin_edge_avoidance_witness :
    (get_bearing_histogram [0, 90] [2, 3] 2).length = 2 ∧
    ∀ i, i < 2 →
      ((get_bearing_histogram [0, 90] [2, 3] 2).getD i
          ⟨0, 0, 0, none, 0, none⟩).bin_index = i + 1 ∧
      ((get_bearing_histogram [0, 90] [2, 3] 2).getD i
          ⟨0, 0, 0, none, 0, none⟩).bin_center = (i : ℚ) * (360 / 2) ∧
      ((get_bearing_histogram [0, 90] [2, 3] 2).getD i
          ⟨0, 0, 0, none, 0, none⟩).bin_count
        = nearCenterWeight [0, 90] [2, 3] 2 i := by
  have h := C9_bin_edge_avoidance 2 [0, 90] [2, 3] (by norm_num)
    (by intro b hb
        simp only [List.mem_cons, List.not_mem_nil, or_false] at hb
        rcases hb with rfl | rfl <;> norm_num)
  simpa using h
